import Mathlib

/-!
Verification of the kona-lang source-position subsystem
(`compiler/kona-diagnostic`) and its companions (symbol interner,
diagnostic builder).  Rust code is shallowly embedded: machine integers
become `Nat` (overflow checks are explicit where the Rust code performs
them), fallible operations (assertion failures, panics, index underflow)
return `Option`, and stateful code is explicit state passing.
-/

namespace Kona

/-- Modelled from the spec: the file `source/pos.rs` defining `Pos` is not
among the available sources (only its callers are).  Per the spec, `Pos` is
an opaque wrapper over a `u32` byte offset in the global position space,
with `0` reserved as the dummy position; it supports `from_u32`, `to_u32`,
`to_usize`, `is_dummy` and addition of small offsets.  We model it as `Nat`
(the spec's position-space convention keeps all values below `2^32`). -/
abbrev Pos := Nat

/-- Embeds `Pos::is_dummy`: the reserved value `0` is the dummy position. -/
def Pos.isDummy (p : Pos) : Bool := p == 0

/-- Embeds `Span` from `source/span.rs`: a pair of positions.  The Rust
field `end` is a Lean keyword, so it is called `endPos` here. -/
structure Span where
  start : Nat
  endPos : Nat
  deriving Repr, DecidableEq

/-- Embeds `Span::new` from `source/span.rs`.  The Rust constructor runs
`debug_assert!(start.to_u32() != 0 && end.to_u32() != 0)` and then returns
`Span { start, end }`; a failed debug assertion aborts, modelled as
`none`.  Note the code performs no `start <= end` check. -/
def Span.new (start endp : Nat) : Option Span :=
  if start ≠ 0 ∧ endp ≠ 0 then some ⟨start, endp⟩ else none

/-- Embeds `Span::dummy`. -/
def Span.dummy : Span := ⟨0, 0⟩

/-- Embeds `Span::is_dummy`. -/
def Span.isDummy (s : Span) : Bool := s.start == 0 && s.endPos == 0

/-- Embeds `Span::across`. -/
def Span.across (s t : Span) : Span :=
  ⟨min s.start t.start, max s.endPos t.endPos⟩

/-- Embeds `Span::contains` from `source/span.rs`, which is literally
`self.start <= other && other <= self.end` — both comparisons inclusive. -/
def Span.contains (s : Span) (p : Nat) : Bool :=
  decide (s.start ≤ p) && decide (p ≤ s.endPos)

/-- Embeds the loop of Rust `slice::binary_search_by` over a list of `Nat`
keys: `left`/`right` delimit the active half-open interval, the probe is
`mid = left + (right - left) / 2`, a `Less` key moves `left` past `mid`, a
`Greater` key moves `right` to `mid`, and an equal key returns `Ok(mid)`
(`Sum.inl`); an empty interval returns `Err(left)` (`Sum.inr`).  The loop
is given as structural recursion on a fuel argument so it reduces in the
kernel; every call below supplies fuel at least `right - left + 1`, which
suffices because the interval shrinks every iteration. -/
def bsLoop (keys : List Nat) (target : Nat) : Nat → Nat → Nat → Sum Nat Nat
  | 0, left, _ => Sum.inr left
  | fuel + 1, left, right =>
    if left < right then
      let mid := left + (right - left) / 2
      let k := keys.getD mid 0
      if k < target then bsLoop keys target fuel (mid + 1) right
      else if target < k then bsLoop keys target fuel left mid
      else Sum.inl mid
    else Sum.inr left

/-- Embeds Rust `slice::binary_search` (and `binary_search_by_key`) on a
sorted list of `Nat` keys: `Sum.inl i` is `Ok(i)`, `Sum.inr i` is
`Err(i)`. -/
def rustBinarySearch (keys : List Nat) (target : Nat) : Sum Nat Nat :=
  bsLoop keys target (keys.length + 1) 0 keys.length

/-- Strict sortedness of a list of keys, as used by every binary search in
the source (line-start tables, multi-byte tables, file start tables are all
strictly increasing). -/
def StrictSorted (keys : List Nat) : Prop :=
  keys.Pairwise (· < ·)

/-- Embeds `MultiByteChar` from `source/source_file.rs`: the position of a
multi-byte UTF-8 character and its byte length (2, 3 or 4). -/
structure MultiByteChar where
  pos : Nat
  len : Nat
  deriving Repr, DecidableEq

instance : Inhabited MultiByteChar := ⟨⟨0, 0⟩⟩

/-- Embeds `NonNarrowCharKind` from `source/source_file.rs`. -/
inductive NonNarrowCharKind where
  | ZeroWidth
  | Wide
  | Tab
  deriving Repr, DecidableEq

/-- Embeds `NonNarrowChar` from `source/source_file.rs`. -/
structure NonNarrowChar where
  pos : Nat
  kind : NonNarrowCharKind
  deriving Repr, DecidableEq

/-- Embeds `NonNarrowChar::new`: width `0` becomes `ZeroWidth`, width `2`
becomes `Wide`, anything else becomes `Tab`. -/
def NonNarrowChar.new (pos width : Nat) : NonNarrowChar :=
  ⟨pos, if width = 0 then .ZeroWidth else if width = 2 then .Wide else .Tab⟩

/-- Embeds `NonNarrowChar::width`. -/
def NonNarrowChar.width (c : NonNarrowChar) : Nat :=
  match c.kind with
  | .ZeroWidth => 0
  | .Wide => 2
  | .Tab => 4

/-- Models the East Asian Wide / Fullwidth ranges of the external
`unicode-width` crate (the only values the theorems below consume are for
ASCII and for U+03BB `λ`, which lies in none of these ranges). -/
def charIsWide (c : Char) : Bool :=
  let v := c.toNat
  (0x1100 ≤ v && v ≤ 0x115F) || (0x2E80 ≤ v && v ≤ 0x303E) ||
  (0x3041 ≤ v && v ≤ 0x33FF) || (0x3400 ≤ v && v ≤ 0x4DBF) ||
  (0x4E00 ≤ v && v ≤ 0x9FFF) || (0xA000 ≤ v && v ≤ 0xA4CF) ||
  (0xAC00 ≤ v && v ≤ 0xD7A3) || (0xF900 ≤ v && v ≤ 0xFAFF) ||
  (0xFE30 ≤ v && v ≤ 0xFE4F) || (0xFF00 ≤ v && v ≤ 0xFF60) ||
  (0xFFE0 ≤ v && v ≤ 0xFFE6) || (0x20000 ≤ v && v ≤ 0x2FFFD) ||
  (0x30000 ≤ v && v ≤ 0x3FFFD)

/-- Models the zero-width ranges (combining marks, zero-width controls,
variation selectors) of the external `unicode-width` crate. -/
def charIsZeroWidth (c : Char) : Bool :=
  let v := c.toNat
  (0x0300 ≤ v && v ≤ 0x036F) || (0x200B ≤ v && v ≤ 0x200F) ||
  (0x20D0 ≤ v && v ≤ 0x20FF) || (0xFE00 ≤ v && v ≤ 0xFE0F)

/-- Models `UnicodeWidthChar::width(c).unwrap_or(0)` from the external
`unicode-width` crate: control characters map to `None` (hence `0`), wide
East Asian characters to `2`, zero-width characters to `0`, everything
else to `1`. -/
def charWidth (c : Char) : Nat :=
  if c.toNat < 32 || c.toNat == 0x7F then 0
  else if charIsZeroWidth c then 0
  else if charIsWide c then 2
  else 1

/-- Byte length of a decoded UTF-8 text, matching Rust `str::len`. -/
def byteLen (src : List Char) : Nat :=
  (src.map Char.utf8Size).sum

/-- Embeds the scanning loop of `SourceFile::analyze` from
`source/source_file.rs`.  The Rust loop walks the byte array, but always
advances by the UTF-8 length of the character at the current index, so on
the (guaranteed valid) UTF-8 text it visits exactly the decoded characters
in order; we therefore recurse over the decoded character list, carrying
the current global byte position.  Branch selection matches the byte test
of the source: the first byte of a character is `< 32` exactly when the
character's scalar value is `< 32`, and is `>= 127` exactly when the
scalar value is `>= 127` (scalar values 32..=126 are single bytes equal to
the value, and scalars above 127 have leading byte `>= 0xC2`).  Returns
the line starts, multi-byte characters and non-narrow characters recorded
from this point on. -/
def analyzeLoop : List Char → Nat → List Nat × List MultiByteChar × List NonNarrowChar
  | [], _ => ([], [], [])
  | c :: rest, pos =>
    let next := analyzeLoop rest (pos + c.utf8Size)
    if c.toNat < 32 then
      -- ASCII control characters: the match arms for LF, for CR not
      -- followed by LF, for TAB, and the catch-all (which a CR that is
      -- followed by LF falls into).
      if c = '\n' then ((pos + 1) :: next.1, next.2.1, next.2.2)
      else if c = '\r' && rest.head? != some '\n' then
        ((pos + 1) :: next.1, next.2.1, next.2.2)
      else if c = '\t' then
        (next.1, next.2.1, NonNarrowChar.new pos 4 :: next.2.2)
      else (next.1, next.2.1, NonNarrowChar.new pos 0 :: next.2.2)
    else if 127 ≤ c.toNat then
      -- DEL or the start of a multi-byte character: record the byte
      -- length when above 1, then the display width when it is not 1.
      let ms := if 1 < c.utf8Size then
          MultiByteChar.mk pos c.utf8Size :: next.2.1 else next.2.1
      let ns := if charWidth c ≠ 1 then
          NonNarrowChar.new pos (charWidth c) :: next.2.2 else next.2.2
      (next.1, ms, ns)
    else next

/-- Embeds `SourceFile::analyze`: seed the line table with `start_pos`,
run the scan, and pop the optimistically registered final line start when
it coincides with the end position of the file. -/
def analyze (src : List Char) (startPos : Nat) :
    List Nat × List MultiByteChar × List NonNarrowChar :=
  let scanned := analyzeLoop src startPos
  let lines := startPos :: scanned.1
  let endPos := startPos + byteLen src
  let lines := if lines.getLast? == some endPos then lines.dropLast else lines
  (lines, scanned.2.1, scanned.2.2)

/-- Embeds the data of `SourceFile` from `source/source_file.rs` (the
`path` field plays no role in any claim and is omitted; `src` is the
decoded character list of the UTF-8 text). -/
structure SourceFile where
  src : List Char
  span : Span
  lines : List Nat
  multiByteChars : List MultiByteChar
  nonNarrowChars : List NonNarrowChar
  deriving Repr, DecidableEq

/-- Embeds `SourceFile::new`: `span = [start_pos, start_pos + src.len())`
and the three tables come from `analyze`.  (The `Span::new` debug
assertion is the identity on these values whenever `start_pos` is not 0,
which holds for every position the allocator hands out.) -/
def SourceFile.make (src : List Char) (startPos : Nat) : SourceFile :=
  let t := analyze src startPos
  ⟨src, ⟨startPos, startPos + byteLen src⟩, t.1, t.2.1, t.2.2⟩

/-- Embeds `SourceFile::is_empty`. -/
def SourceFile.isEmpty (f : SourceFile) : Bool :=
  f.span.start == f.span.endPos

/-- Embeds `SourceFile::lookup_line`: binary search of the line table;
`Ok(i)` yields `i`, `Err(0)` yields `None`, `Err(i)` yields `i - 1`. -/
def SourceFile.lookupLine (f : SourceFile) (pos : Nat) : Option Nat :=
  match rustBinarySearch f.lines pos with
  | Sum.inl idx => some idx
  | Sum.inr 0 => none
  | Sum.inr (idx + 1) => some idx

/-- Embeds `SourceFile::lookup_line_bounds`: the function asserts
`line_index < lines.len()` (modelled as `none` on failure), then returns
the whole span for an empty file, `[lines[i], span.end)` for the last
line, and `[lines[i], lines[i+1])` otherwise. -/
def SourceFile.lookupLineBounds (f : SourceFile) (lineIndex : Nat) :
    Option (Nat × Nat) :=
  if lineIndex < f.lines.length then
    some (if f.isEmpty then (f.span.start, f.span.endPos)
      else if lineIndex = f.lines.length - 1 then
        (f.lines.getD lineIndex 0, f.span.endPos)
      else (f.lines.getD lineIndex 0, f.lines.getD (lineIndex + 1) 0))
  else none

/-- Embeds `SourceFile::lookup_line_and_col`: on a found line, the column
is the byte offset from the line start minus one byte for every extra byte
of each multi-byte character recorded before `pos` on the line (located by
a binary search for the line start followed by a `take_while`); the
returned line is `line + 1`, the column is returned as computed (the
code's own doc comment calls it the 0-based column offset).  The Rust
expression `pos.to_usize() - line_start.to_usize() - extra_byte` is
unchecked `usize` subtraction, evaluated left to right: it underflows
when `line_start > pos`, and — reachably, when `pos` lies strictly inside
a multi-byte character — when the recorded extra bytes exceed the byte
offset; an underflow panics in a debug build and wraps in release,
modelled as `none`.  When no line is found the code returns `(0, 0)`
normally. -/
def SourceFile.lookupLineAndCol (f : SourceFile) (pos : Nat) :
    Option (Nat × Nat) :=
  match f.lookupLine pos with
  | some line =>
    let lineStart := f.lines.getD line 0
    let linebpos := f.lines.getD line 0
    let startIdx :=
      match rustBinarySearch (f.multiByteChars.map MultiByteChar.pos) linebpos with
      | Sum.inl i => i
      | Sum.inr i => i
    let extraByte :=
      (((f.multiByteChars.drop startIdx).takeWhile
          (fun x => decide (x.pos < pos))).map (fun x => x.len - 1)).sum
    if lineStart ≤ pos ∧ extraByte ≤ pos - lineStart then
      some (line + 1, pos - lineStart - extraByte)
    else none
  | none => some (0, 0)

/-- Embeds `SourceFile::lookup_line_col_and_col_display`: after
`lookup_line_and_col` (whose panic propagates), the code indexes
`lines[line - 1]` (which panics when `line = 0` or the index is out of
range, modelled as `none`), binary searches the non-narrow table for the
line start, walks it with `take_while`, and returns `col + Σ width −
count` (the `usize` subtraction panics on underflow in a debug build,
modelled as `none`). -/
def SourceFile.lookupLineColAndColDisplay (f : SourceFile) (pos : Nat) :
    Option (Nat × Nat × Nat) :=
  match f.lookupLineAndCol pos with
  | none => none
  | some lc =>
  let line := lc.1
  let col := lc.2
  if 1 ≤ line ∧ line - 1 < f.lines.length then
    let linebpos := f.lines.getD (line - 1) 0
    let startIdx :=
      match rustBinarySearch (f.nonNarrowChars.map NonNarrowChar.pos) linebpos with
      | Sum.inl i => i
      | Sum.inr i => i
    let nonNarrow := (f.nonNarrowChars.drop startIdx).takeWhile
      (fun x => decide (x.pos < pos))
    let width := (nonNarrow.map NonNarrowChar.width).sum
    let count := nonNarrow.length
    if count ≤ col + width then some (line, col, col + width - count)
    else none
  else none

/-- Embeds `LookupError` from `source/source_map.rs`. -/
inductive LookupError where
  | DummyPosOrSpan
  | DummySpan
  | OutOfRange
  | SpanAcrossFiles
  deriving Repr, DecidableEq

instance : Inhabited SourceFile := ⟨⟨[], ⟨0, 0⟩, [], [], []⟩⟩

/-- Modelled from the spec: `SourceFile::contains_pos` is called by
`SourceMap::lookup_file_at_pos` but is not defined in the available
sources (the `source_file.rs` present predates its caller and lacks the
method).  Per the spec, each file owns the half-open byte range
`[span.start, span.end)` and a position past the preceding file's end is
out of range, so membership is `start <= p < end`. -/
def SourceFile.containsPos (f : SourceFile) (p : Nat) : Bool :=
  decide (f.span.start ≤ p) && decide (p < f.span.endPos)

/-- Embeds `SourceMap::lookup_file_at_pos` from `source/source_map.rs`,
with the map's file list passed explicitly (in load order).  A dummy
position yields `Err(DummyPosOrSpan)`; otherwise the file list is binary
searched by start position: an exact hit on an empty file yields
`Err(OutOfRange)`, an exact hit otherwise returns the file; on a miss the
code runs `debug_assert!(res > 0 && res <= files.len())` and indexes
`files[res - 1]`, so a miss with insertion point `0` fails the assertion
(and the `res - 1` underflow makes the indexing panic even in release
builds), modelled as `none`; otherwise the preceding file is returned if
it contains the position and `Err(OutOfRange)` results if not. -/
def SourceMap.lookupFileAtPos (files : List SourceFile) (p : Nat) :
    Option (Except LookupError SourceFile) :=
  if Pos.isDummy p then some (Except.error LookupError.DummyPosOrSpan)
  else
    match rustBinarySearch (files.map (fun f => f.span.start)) p with
    | Sum.inl idx =>
      if (files.getD idx default).isEmpty then
        some (Except.error LookupError.OutOfRange)
      else some (Except.ok (files.getD idx default))
    | Sum.inr 0 => none
    | Sum.inr (idx + 1) =>
      if (files.getD idx default).containsPos p then
        some (Except.ok (files.getD idx default))
      else some (Except.error LookupError.OutOfRange)

/-- Embeds `SourceMap::lookup_pos_info`: resolve the owning file (the `?`
operator propagates lookup errors), then take the file's line, column and
display column. -/
def SourceMap.lookupPosInfo (files : List SourceFile) (p : Nat) :
    Option (Except LookupError (Nat × Nat × Nat)) :=
  match SourceMap.lookupFileAtPos files p with
  | none => none
  | some (Except.error e) => some (Except.error e)
  | some (Except.ok f) =>
    match f.lookupLineColAndColDisplay p with
    | none => none
    | some r => some (Except.ok r)

/-- Embeds the state of `SourceMap` relevant to position allocation: the
`used_pos_space` counter and the loaded files in load order. -/
structure SourceMapState where
  usedPosSpace : Nat
  files : List SourceFile
  deriving Repr, DecidableEq

/-- Embeds `SourceMap::new`: position 0 is reserved for the dummy span, so
the counter starts at 1 with no files loaded. -/
def SourceMapState.new : SourceMapState := ⟨1, []⟩

/-- Embeds `SourceMap::allocate_pos_space`: the counter advances by
`size + 1` (one guard byte keeps zero-length files distinct) and the
previous value is returned as the new file's start position.  The Rust
code computes the new value with `checked_add` on `usize` and `expect`s,
so overflow past `2^64 - 1` panics, modelled as `none`.  (The
compare-and-swap loop serves only to make the update atomic; sequentially
it is this function.) -/
def SourceMapState.allocatePosSpace (st : SourceMapState) (size : Nat) :
    Option (Nat × SourceMapState) :=
  if st.usedPosSpace + size + 1 ≤ 2 ^ 64 - 1 then
    some (st.usedPosSpace,
      { st with usedPosSpace := st.usedPosSpace + size + 1 })
  else none

/-- Embeds the allocation-and-registration path of
`SourceMap::load_test_file`: allocate position space for the byte length
of the source, construct the `SourceFile` at the returned start position,
and append it to the file list. -/
def SourceMapState.loadTestFile (st : SourceMapState) (src : List Char) :
    Option SourceMapState :=
  match st.allocatePosSpace (byteLen src) with
  | none => none
  | some (startPos, st') =>
    some { st' with files := st'.files ++ [SourceFile.make src startPos] }

/-- Runs a sequence of `load_test_file` calls from the given state. -/
def loadAllFrom (st : SourceMapState) : List (List Char) → Option SourceMapState
  | [] => some st
  | src :: rest =>
    match st.loadTestFile src with
    | none => none
    | some st' => loadAllFrom st' rest

/-- Runs a sequence of `load_test_file` calls on a fresh `SourceMap`. -/
def loadAll (srcs : List (List Char)) : Option SourceMapState :=
  loadAllFrom SourceMapState.new srcs

/-- Invariant maintained by the allocator: the counter is at least 1,
files appear in order with at least one guard byte between consecutive
assigned ranges, and every assigned range starts at 1 or later and ends
strictly below the counter. -/
def SourceMapInv (st : SourceMapState) : Prop :=
  1 ≤ st.usedPosSpace ∧
  st.files.Pairwise (fun f g => f.span.endPos < g.span.start) ∧
  ∀ f ∈ st.files, 1 ≤ f.span.start ∧ f.span.endPos < st.usedPosSpace

/-- Embeds `Symbol` from `intern/symbol.rs`: an opaque `u32` id.  Ids are
produced by `self.symbols.len() as u32`, so the id is the length reduced
modulo `2^32`. -/
structure Symbol where
  id : Nat
  deriving Repr, DecidableEq

/-- Embeds `Interner` from `intern/symbol.rs`.  The bump-arena storage
only serves to keep the strings alive; the observable state is the
`symbols` vector and the `names` map.  The `HashMap` is modelled as an
association list searched front to back — faithful because `intern` only
ever inserts a key that is absent, so no key occurs twice. -/
structure Interner where
  symbols : List String
  names : List (String × Symbol)
  deriving Repr, DecidableEq

/-- Embeds the `Interner::default()` state behind `GLOBAL_INTERNER`. -/
def Interner.empty : Interner := ⟨[], []⟩

/-- Models `self.names.get(string)` on the association list. -/
def Interner.findName (it : Interner) (s : String) : Option Symbol :=
  (it.names.find? (fun p => p.1 == s)).map Prod.snd

/-- Embeds `Interner::intern`: return the existing symbol when the string
is already interned; otherwise assign id `symbols.len() as u32`, append
the string to `symbols` and record it in `names`. -/
def Interner.intern (it : Interner) (s : String) : Symbol × Interner :=
  match it.findName s with
  | some symbol => (symbol, it)
  | none =>
    let symbol : Symbol := ⟨it.symbols.length % 2 ^ 32⟩
    (symbol, ⟨it.symbols ++ [s], (s, symbol) :: it.names⟩)

/-- Embeds `Interner::get` (the body of `Symbol::as_str`):
`&self.symbols[symbol.id as usize]`, whose indexing panics when the id is
out of range, modelled as `none`. -/
def Interner.get (it : Interner) (symbol : Symbol) : Option String :=
  it.symbols[symbol.id]?

/-- Well-formedness of the interner state, as maintained by `intern` from
the empty state: every recorded name maps to the slot of `symbols` that
holds exactly that string. -/
def Interner.wf (it : Interner) : Prop :=
  ∀ p ∈ it.names, it.symbols[p.2.id]? = some p.1

/-- Embeds `Level` from `diagnostic/diagnostic.rs`. -/
inductive Level where
  | Error
  | Warn
  | Note
  deriving Repr, DecidableEq

/-- Embeds `DiagnosticLabel` from `diagnostic/diagnostic.rs`. -/
structure DiagnosticLabel where
  span : Span
  message : String
  deriving Repr, DecidableEq

/-- Embeds `DiagnosticLabels` from `diagnostic/diagnostic.rs`. -/
structure DiagnosticLabels where
  primaryLabel : DiagnosticLabel
  sublabels : List DiagnosticLabel
  deriving Repr, DecidableEq

/-- Embeds `Diagnostic` from `diagnostic/diagnostic.rs`. -/
structure Diagnostic where
  level : Level
  message : String
  labels : DiagnosticLabels
  deriving Repr, DecidableEq

/-- Embeds `DiagnosticBuilderState` from
`diagnostic/diagnostic_builder.rs` (the engine reference carried by
`Emittable` plays no role in the drop discipline). -/
inductive DiagnosticBuilderState where
  | Emittable
  | EmittedOrCancelled
  deriving Repr, DecidableEq

/-- Embeds `DiagnosticBuilder`: the consumption state plus the diagnostic
being built. -/
structure DiagnosticBuilder where
  state : DiagnosticBuilderState
  diagnostic : Diagnostic
  deriving Repr, DecidableEq

/-- Embeds `DiagnosticBuilder::new`: a fresh builder is `Emittable`. -/
def DiagnosticBuilder.new (d : Diagnostic) : DiagnosticBuilder :=
  ⟨DiagnosticBuilderState.Emittable, d⟩

/-- Embeds `DiagnosticBuilder::emit` with the `()` emission guarantee: an
`Emittable` builder hands its diagnostic to the engine and flips to
`EmittedOrCancelled`; an already consumed builder does nothing.  The
returned `Bool` records whether the engine received the diagnostic; the
builder value is the one Rust drops when `emit(mut self)` returns. -/
def DiagnosticBuilder.emit (b : DiagnosticBuilder) : DiagnosticBuilder × Bool :=
  match b.state with
  | DiagnosticBuilderState.Emittable =>
    ({ b with state := DiagnosticBuilderState.EmittedOrCancelled }, true)
  | DiagnosticBuilderState.EmittedOrCancelled => (b, false)

/-- Embeds `DiagnosticBuilder::cancel`: mark the builder consumed (Rust
then drops it immediately). -/
def DiagnosticBuilder.cancel (b : DiagnosticBuilder) : DiagnosticBuilder :=
  { b with state := DiagnosticBuilderState.EmittedOrCancelled }

/-- Embeds the `Drop` impl of `DiagnosticBuilder` (the destructor bomb):
dropping panics exactly when the builder is still `Emittable`. -/
def DiagnosticBuilder.dropPanics (b : DiagnosticBuilder) : Bool :=
  b.state == DiagnosticBuilderState.Emittable

/-- Restates, for the refinement comparison of claim C3, the line-start
rule in the words of the claim: a line start is recorded immediately after
each LF, and after each CR that is not followed by an LF (so a CRLF pair
contributes exactly one line start, the one after its LF). -/
def claimLineStarts : List Char → Nat → List Nat
  | [], _ => []
  | c :: rest, pos =>
    let tail := claimLineStarts rest (pos + c.utf8Size)
    if c = '\n' then (pos + 1) :: tail
    else if c = '\r' ∧ rest.head? ≠ some '\n' then (pos + 1) :: tail
    else tail

/-- Restates, for the refinement comparison of claim C3, the whole lines
table in the words of the claim: the table always begins with `start_pos`,
records the starts after each line break, and drops the final entry when
it equals the file end position. -/
def claimLines (src : List Char) (startPos : Nat) : List Nat :=
  let table := startPos :: claimLineStarts src startPos
  if table.getLast? = some (startPos + byteLen src) then table.dropLast
  else table

theorem analyze_mbc_eq (src : List Char) (startPos : Nat) :
    (analyze src startPos).2.1 = (analyzeLoop src startPos).2.1 := rfl

theorem make_lines (src : List Char) (startPos : Nat) :
    (SourceFile.make src startPos).lines = (analyze src startPos).1 := rfl

theorem make_mbc (src : List Char) (startPos : Nat) :
    (SourceFile.make src startPos).multiByteChars =
      (analyzeLoop src startPos).2.1 := rfl

theorem make_span (src : List Char) (startPos : Nat) :
    (SourceFile.make src startPos).span = ⟨startPos, startPos + byteLen src⟩ :=
  rfl

/-- Shape of one step of the scan, lines component: a character either
contributes the line start `pos + 1` or contributes nothing. -/
theorem analyzeLoop_cons_lines (c : Char) (rest : List Char) (pos : Nat) :
    (analyzeLoop (c :: rest) pos).1 =
        (analyzeLoop rest (pos + c.utf8Size)).1 ∨
    (analyzeLoop (c :: rest) pos).1 =
        (pos + 1) :: (analyzeLoop rest (pos + c.utf8Size)).1 := by
  simp only [analyzeLoop]
  repeat' split
  all_goals simp

/-- Shape of one step of the scan, multi-byte component: a character
either contributes the entry `(pos, utf8Size)` or contributes nothing. -/
theorem analyzeLoop_cons_mbc (c : Char) (rest : List Char) (pos : Nat) :
    (analyzeLoop (c :: rest) pos).2.1 =
        (analyzeLoop rest (pos + c.utf8Size)).2.1 ∨
    (analyzeLoop (c :: rest) pos).2.1 =
        MultiByteChar.mk pos c.utf8Size ::
          (analyzeLoop rest (pos + c.utf8Size)).2.1 := by
  simp only [analyzeLoop]
  repeat' split
  all_goals simp

/-- Every line start recorded by the scan lies strictly beyond the
position at which the scan starts. -/
theorem analyzeLoop_lines_lb (src : List Char) (pos : Nat) :
    ∀ x ∈ (analyzeLoop src pos).1, pos < x := by
  induction src generalizing pos with
  | nil => intro x hx; simp [analyzeLoop] at hx
  | cons c rest ih =>
    intro x hx
    have hsize : 1 ≤ c.utf8Size := Char.utf8Size_pos c
    rcases analyzeLoop_cons_lines c rest pos with h | h <;> rw [h] at hx
    · have := ih (pos + c.utf8Size) x hx; omega
    · rcases List.mem_cons.mp hx with rfl | hx
      · omega
      · have := ih (pos + c.utf8Size) x hx; omega

/-- Every multi-byte entry recorded by the scan lies at or beyond the
position at which the scan starts. -/
theorem analyzeLoop_mbc_lb (src : List Char) (pos : Nat) :
    ∀ x ∈ (analyzeLoop src pos).2.1, pos ≤ x.pos := by
  induction src generalizing pos with
  | nil => intro x hx; simp [analyzeLoop] at hx
  | cons c rest ih =>
    intro x hx
    have hsize : 1 ≤ c.utf8Size := Char.utf8Size_pos c
    rcases analyzeLoop_cons_mbc c rest pos with h | h <;> rw [h] at hx
    · have := ih (pos + c.utf8Size) x hx; omega
    · rcases List.mem_cons.mp hx with rfl | hx
      · simp
      · have := ih (pos + c.utf8Size) x hx; omega

/-- The recorded line starts are strictly increasing. -/
theorem analyzeLoop_lines_sorted (src : List Char) (pos : Nat) :
    ((analyzeLoop src pos).1).Pairwise (· < ·) := by
  induction src generalizing pos with
  | nil => simp [analyzeLoop]
  | cons c rest ih =>
    have hsize : 1 ≤ c.utf8Size := Char.utf8Size_pos c
    rcases analyzeLoop_cons_lines c rest pos with h | h <;> rw [h]
    · exact ih (pos + c.utf8Size)
    · refine List.pairwise_cons.mpr ⟨?_, ih (pos + c.utf8Size)⟩
      intro x hx
      have := analyzeLoop_lines_lb rest (pos + c.utf8Size) x hx
      omega

/-- The recorded multi-byte entries have strictly increasing positions. -/
theorem analyzeLoop_mbc_sorted (src : List Char) (pos : Nat) :
    ((analyzeLoop src pos).2.1).Pairwise (fun a b => a.pos < b.pos) := by
  induction src generalizing pos with
  | nil => simp [analyzeLoop]
  | cons c rest ih =>
    have hsize : 1 ≤ c.utf8Size := Char.utf8Size_pos c
    rcases analyzeLoop_cons_mbc c rest pos with h | h <;> rw [h]
    · exact ih (pos + c.utf8Size)
    · refine List.pairwise_cons.mpr ⟨?_, ih (pos + c.utf8Size)⟩
      intro x hx
      have := analyzeLoop_mbc_lb rest (pos + c.utf8Size) x hx
      show pos < x.pos
      omega

/-- Unfolding lemma for the lines component of `analyze`. -/
theorem analyze_lines_eq (src : List Char) (startPos : Nat) :
    (analyze src startPos).1 =
      if (startPos :: (analyzeLoop src startPos).1).getLast?
          == some (startPos + byteLen src)
      then (startPos :: (analyzeLoop src startPos).1).dropLast
      else startPos :: (analyzeLoop src startPos).1 := rfl

/-- The lines table of a constructed file is strictly increasing. -/
theorem analyze_lines_sorted (src : List Char) (startPos : Nat) :
    StrictSorted (analyze src startPos).1 := by
  have hl : (startPos :: (analyzeLoop src startPos).1).Pairwise (· < ·) :=
    List.pairwise_cons.mpr
      ⟨analyzeLoop_lines_lb src startPos, analyzeLoop_lines_sorted src startPos⟩
  unfold StrictSorted
  rw [analyze_lines_eq]
  split
  · exact hl.sublist (List.dropLast_sublist _)
  · exact hl

theorem strictSorted_getD {keys : List Nat} (h : StrictSorted keys)
    {i j : Nat} (hij : i < j) (hj : j < keys.length) :
    keys.getD i 0 < keys.getD j 0 := by
  have hi : i < keys.length := lt_trans hij hj
  rw [List.getD_eq_getElem _ _ hi, List.getD_eq_getElem _ _ hj]
  exact List.pairwise_iff_getElem.mp h i j hi hj hij

/-- Invariant-based specification of the binary-search loop: if everything
strictly left of `left` is below the target and everything at or right of
`right` is above it, the loop either finds an exact match or returns the
unique insertion point. -/
theorem bsLoop_spec (keys : List Nat) (target : Nat)
    (hsorted : StrictSorted keys) :
    ∀ fuel left right, left ≤ right → right ≤ keys.length → right - left < fuel →
    (∀ j, j < left → keys.getD j 0 < target) →
    (∀ j, right ≤ j → j < keys.length → target < keys.getD j 0) →
    (match bsLoop keys target fuel left right with
     | Sum.inl i => i < keys.length ∧ keys.getD i 0 = target
     | Sum.inr i => i ≤ keys.length ∧
         (∀ j, j < i → keys.getD j 0 < target) ∧
         (∀ j, i ≤ j → j < keys.length → target < keys.getD j 0)) := by
  intro fuel
  induction fuel with
  | zero => intro left right _ _ hlt _ _; omega
  | succ fuel ih =>
    intro left right hlr0 hright hfuel hlo hhi
    by_cases hlr : left < right
    · have hmid : left + (right - left) / 2 < right := by omega
      have hmidlen : left + (right - left) / 2 < keys.length := lt_of_lt_of_le hmid hright
      set mid := left + (right - left) / 2 with hmiddef
      by_cases h1 : keys.getD mid 0 < target
      · have : bsLoop keys target (fuel + 1) left right
            = bsLoop keys target fuel (mid + 1) right := by
          simp only [bsLoop, if_pos hlr, ← hmiddef, if_pos h1]
        rw [this]
        refine ih (mid + 1) right (by omega) hright (by omega) ?_ hhi
        intro j hj
        rcases Nat.lt_or_ge j mid with hjm | hjm
        · exact lt_trans (strictSorted_getD hsorted hjm hmidlen) h1
        · have : j = mid := by omega
          rw [this]; exact h1
      · by_cases h2 : target < keys.getD mid 0
        · have : bsLoop keys target (fuel + 1) left right
              = bsLoop keys target fuel left mid := by
            simp only [bsLoop, if_pos hlr, ← hmiddef, if_neg h1, if_pos h2]
          rw [this]
          refine ih left mid (by omega) (le_of_lt hmidlen) (by omega) hlo ?_
          intro j hj hjlen
          rcases Nat.eq_or_lt_of_le hj with hjm | hjm
          · rw [← hjm]; exact h2
          · exact lt_trans h2 (strictSorted_getD hsorted hjm hjlen)
        · have : bsLoop keys target (fuel + 1) left right = Sum.inl mid := by
            simp only [bsLoop, if_pos hlr, ← hmiddef, if_neg h1, if_neg h2]
          rw [this]
          exact ⟨hmidlen, by omega⟩
    · have : bsLoop keys target (fuel + 1) left right = Sum.inr left := by
        simp only [bsLoop, if_neg hlr]
      rw [this]
      refine ⟨by omega, hlo, ?_⟩
      intro j hj hjlen
      exact hhi j (by omega) hjlen

/-- Top-level specification of `rustBinarySearch` on a strictly sorted key
list: `Ok(i)` means `keys[i]` equals the target, `Err(i)` means `i` is the
insertion point with everything below it smaller and everything at or above
it larger. -/
theorem rustBinarySearch_spec (keys : List Nat) (target : Nat)
    (hsorted : StrictSorted keys) :
    (match rustBinarySearch keys target with
     | Sum.inl i => i < keys.length ∧ keys.getD i 0 = target
     | Sum.inr i => i ≤ keys.length ∧
         (∀ j, j < i → keys.getD j 0 < target) ∧
         (∀ j, i ≤ j → j < keys.length → target < keys.getD j 0)) := by
  exact bsLoop_spec keys target hsorted (keys.length + 1) 0 keys.length
    (by omega) le_rfl (by omega) (by omega) (by intro j hj hjlen; omega)

/-- The `unwrap_or_else(|x| x)` pattern of the source collapses both
binary-search outcomes to one index `si`; on a strictly sorted key list,
everything strictly below `si` is smaller than the target and everything
at or above it is at least the target. -/
theorem rustBinarySearch_split (keys : List Nat) (target : Nat)
    (hsorted : StrictSorted keys) (si : Nat)
    (hsi : si = (match rustBinarySearch keys target with
                 | Sum.inl i => i
                 | Sum.inr i => i)) :
    si ≤ keys.length ∧ (∀ j, j < si → keys.getD j 0 < target) ∧
    (∀ j, si ≤ j → j < keys.length → target ≤ keys.getD j 0) := by
  have h := rustBinarySearch_spec keys target hsorted
  rcases hres : rustBinarySearch keys target with i | i <;>
    rw [hres] at h hsi <;> subst hsi
  · obtain ⟨hilen, heq⟩ := h
    refine ⟨le_of_lt hilen, ?_, ?_⟩
    · intro j hj
      have := strictSorted_getD hsorted hj hilen
      omega
    · intro j hij hjlen
      rcases Nat.eq_or_lt_of_le hij with rfl | hlt
      · omega
      · have := strictSorted_getD hsorted hlt hjlen
        omega
  · obtain ⟨hilen, hlo, hhi⟩ := h
    exact ⟨hilen, hlo, fun j hij hjlen => le_of_lt (hhi j hij hjlen)⟩

theorem getD_map_pos (l : List MultiByteChar) (j : Nat) (hj : j < l.length) :
    (l.map MultiByteChar.pos).getD j 0 = (l.getD j default).pos := by
  rw [List.getD_eq_getElem _ _ (by simpa using hj),
    List.getD_eq_getElem _ _ hj, List.getElem_map]

theorem forall_mem_of_getD {α : Type} [Inhabited α] {l : List α} {P : α → Prop}
    (h : ∀ j, j < l.length → P (l.getD j default)) : ∀ x ∈ l, P x := by
  intro x hx
  obtain ⟨i, hi, rfl⟩ := List.getElem_of_mem hx
  have := h i hi
  rwa [List.getD_eq_getElem _ _ hi] at this

/-- On a list whose positions are strictly increasing, `take_while` for a
position upper bound agrees with `filter`: once an element fails the
bound, all later ones do too. -/
theorem takeWhile_eq_filter_sorted (l : List MultiByteChar) (p : Nat)
    (hsorted : l.Pairwise (fun a b => a.pos < b.pos)) :
    l.takeWhile (fun x => decide (x.pos < p)) =
      l.filter (fun x => decide (x.pos < p)) := by
  induction l with
  | nil => rfl
  | cons a l ih =>
    rcases List.pairwise_cons.mp hsorted with ⟨ha, hl⟩
    by_cases h : a.pos < p
    · simp only [List.takeWhile_cons, List.filter_cons, decide_eq_true h,
        if_pos trivial, ih hl]
    · have hnil : l.filter (fun x => decide (x.pos < p)) = [] := by
        rw [List.filter_eq_nil_iff]
        intro x hx
        have := ha x hx
        simp only [decide_eq_true_eq]
        omega
      simp only [List.takeWhile_cons, List.filter_cons, decide_eq_false h,
        hnil]
      simp

/-- The column computation of `lookup_line_and_col`: binary search places
`si` at the first multi-byte entry at or after the line start, so walking
the suffix with `take_while (pos < p)` visits exactly the entries of the
whole table whose position lies in the half-open window
`[target, p)`. -/
theorem takeWhile_drop_eq_filter (l : List MultiByteChar) (target p si : Nat)
    (hsorted : l.Pairwise (fun a b => a.pos < b.pos))
    (h2 : ∀ j, j < si → j < l.length → (l.getD j default).pos < target)
    (h3 : ∀ j, si ≤ j → j < l.length → target ≤ (l.getD j default).pos) :
    (l.drop si).takeWhile (fun x => decide (x.pos < p)) =
      l.filter (fun x => decide (target ≤ x.pos) && decide (x.pos < p)) := by
  induction l generalizing si with
  | nil => simp
  | cons a l ih =>
    rcases List.pairwise_cons.mp hsorted with ⟨ha, hl⟩
    cases si with
    | zero =>
      have hall : ∀ x ∈ a :: l, target ≤ x.pos :=
        forall_mem_of_getD (fun j hj => h3 j (Nat.zero_le j) hj)
      have hcongr : (a :: l).filter
            (fun x => decide (target ≤ x.pos) && decide (x.pos < p)) =
          (a :: l).filter (fun x => decide (x.pos < p)) := by
        apply List.filter_congr
        intro x hx
        simp [decide_eq_true (hall x hx)]
      rw [List.drop_zero, hcongr]
      exact takeWhile_eq_filter_sorted (a :: l) p hsorted
    | succ si =>
      have hapos : a.pos < target := by
        have := h2 0 (Nat.succ_pos si) (by simp)
        simpa using this
      have hfa : (decide (target ≤ a.pos) && decide (a.pos < p)) = false := by
        have : ¬ target ≤ a.pos := by omega
        simp [this]
      rw [List.drop_succ_cons, List.filter_cons, hfa, if_neg (by simp)]
      refine ih si hl ?_ ?_
      · intro j hj hjlen
        have := h2 (j + 1) (by omega) (by simpa using Nat.succ_lt_succ hjlen)
        simpa using this
      · intro j hj hjlen
        have := h3 (j + 1) (by omega) (by simpa using Nat.succ_lt_succ hjlen)
        simpa using this

/-- C5 counterexample: the span `(1, 2)` is non-dummy with start ≤ end,
yet `contains(2)` returns `true` even though `2` is not in the half-open
range `[1, 2)` — the code's `contains` includes the end position. -/
theorem claim_C5_counterexample :
    (Span.mk 1 2).isDummy = false ∧
    (Span.mk 1 2).start ≤ (Span.mk 1 2).endPos ∧
    (Span.mk 1 2).contains 2 = true ∧
    ¬ ((Span.mk 1 2).start ≤ 2 ∧ 2 < (Span.mk 1 2).endPos) := by
  decide

/-- C5 (amended): for every non-dummy span `s` with start ≤ end and every
position `p`, `s.contains(p)` holds if and only if `s.start ≤ p` and
`p ≤ s.end` — the span's `contains` tests the closed byte range
`[start, end]`, not the half-open one. -/
theorem claim_C5 (s : Span) (p : Nat) (hdummy : s.isDummy = false)
    (hle : s.start ≤ s.endPos) :
    s.contains p = true ↔ s.start ≤ p ∧ p ≤ s.endPos := by
  simp [Span.contains]

/-- C5 witness: the amended equivalence applied at the span `(1, 2)` and
position `1`. -/
theorem claim_C5_witness :
    (Span.mk 1 2).contains 1 = true ↔
      (Span.mk 1 2).start ≤ 1 ∧ 1 ≤ (Span.mk 1 2).endPos :=
  claim_C5 (Span.mk 1 2) 1 (by decide) (by decide)

/-- C9 counterexample: `Span::new(5, 3)` has `start > end` but the code
returns the span `(5, 3)` instead of aborting (no `start ≤ end` check
exists), and `Span::new(0, 0)` — where neither endpoint is the only dummy
one — aborts on its debug assertion instead of returning the span. -/
theorem claim_C9_counterexample :
    Span.new 5 3 = some (Span.mk 5 3) ∧ Span.new 0 0 = none := by
  decide

/-- C9 (amended): `Span::new(start, end)` aborts (debug assertion
failure) exactly when `start = 0` or `end = 0` — including `(0, 0)` — and
for all inputs with both endpoints non-zero it returns the span with the
given endpoints, performing no `start ≤ end` check. -/
theorem claim_C9 (start endp : Nat) :
    (Span.new start endp = none ↔ start = 0 ∨ endp = 0) ∧
    (start ≠ 0 → endp ≠ 0 → Span.new start endp = some (Span.mk start endp)) := by
  constructor
  · unfold Span.new
    split
    · rename_i h
      simp only [reduceCtorEq, false_iff]
      push_neg
      exact h
    · rename_i h
      simp only [true_iff]
      by_contra hc
      push_neg at hc
      exact h hc
  · intro h1 h2
    simp [Span.new, h1, h2]

/-- C9 witness: both endpoints non-zero at `(7, 9)` gives the span. -/
theorem claim_C9_witness : Span.new 7 9 = some (Span.mk 7 9) :=
  (claim_C9 7 9).2 (by decide) (by decide)

/-- C6: a freshly created `DiagnosticBuilder` panics when dropped, while
a builder on which `emit` or `cancel` has run does not panic on drop. -/
theorem claim_C6 (d : Diagnostic) (b : DiagnosticBuilder) :
    (DiagnosticBuilder.new d).dropPanics = true ∧
    (DiagnosticBuilder.emit b).1.dropPanics = false ∧
    (DiagnosticBuilder.cancel b).dropPanics = false := by
  refine ⟨rfl, ?_, rfl⟩
  cases hb : b.state <;>
    simp [DiagnosticBuilder.emit, DiagnosticBuilder.dropPanics, hb]

/-- C2: evaluation at the failing input — on a freshly created map with no
files loaded, looking up the non-dummy position 1 panics (the binary
search returns `Err(0)`, the `debug_assert!(res > 0 …)` fails and
`res - 1` underflows before indexing), instead of returning
`Err(OutOfRange)` as the claim states; and, as the claim also states, a
dummy position yields `Err(DummyPosOrSpan)` on any map, so
`lookup_pos_info(Pos::from_u32(0))` propagates `Err(DummyPosOrSpan)`. -/
theorem claim_C2_panics :
    SourceMap.lookupFileAtPos [] 1 = none ∧
    (∀ files : List SourceFile, SourceMap.lookupFileAtPos files 0 =
      some (Except.error LookupError.DummyPosOrSpan)) ∧
    (∀ files : List SourceFile, SourceMap.lookupPosInfo files 0 =
      some (Except.error LookupError.DummyPosOrSpan)) := by
  refine ⟨rfl, fun files => rfl, fun files => rfl⟩

/-- C8: evaluation at the failing input — for an empty source file the
`analyze` pass pops the seeded line start again (the table's last entry
equals the end position), leaving an empty lines table, so
`lookup_line_bounds(0)` fails its `assert!(line_index < lines.len())` and
panics instead of returning `[span.start, span.end)` as the claim (and
the spec) require; the `is_empty` branch that would return the span is
unreachable. -/
theorem claim_C8_panics :
    (SourceFile.make [] 5).lines = [] ∧
    (SourceFile.make [] 5).isEmpty = true ∧
    (SourceFile.make [] 5).lookupLineBounds 0 = none := by
  decide

/-- C10: for every source file and every position strictly before the
file's first recorded line start — including every position when the
lines table is empty — `lookup_line` returns `None` and
`lookup_line_and_col` returns `(0, 0)` (normally, without panicking). -/
theorem claim_C10 (src : List Char) (startPos p : Nat)
    (h : (SourceFile.make src startPos).lines = [] ∨
      p < (SourceFile.make src startPos).lines.getD 0 0) :
    (SourceFile.make src startPos).lookupLine p = none ∧
    (SourceFile.make src startPos).lookupLineAndCol p = some (0, 0) := by
  have hsorted : StrictSorted (SourceFile.make src startPos).lines := by
    rw [make_lines]
    exact analyze_lines_sorted src startPos
  have hnone : (SourceFile.make src startPos).lookupLine p = none := by
    unfold SourceFile.lookupLine
    have hspec := rustBinarySearch_spec (SourceFile.make src startPos).lines p
      hsorted
    rcases hres : rustBinarySearch (SourceFile.make src startPos).lines p
        with i | i <;> rw [hres] at hspec
    · exfalso
      obtain ⟨hilen, heq⟩ := hspec
      rcases h with hemp | hlt
      · rw [hemp] at hilen
        simp at hilen
      · rcases Nat.eq_zero_or_pos i with rfl | hi
        · omega
        · have := strictSorted_getD hsorted hi hilen
          omega
    · rcases i with _ | i
      · rfl
      · exfalso
        obtain ⟨hilen, hlo, _⟩ := hspec
        have h0 : (SourceFile.make src startPos).lines.getD 0 0 < p :=
          hlo 0 (Nat.succ_pos i)
        rcases h with hemp | hlt
        · rw [hemp] at hilen
          simp at hilen
        · omega
  refine ⟨hnone, ?_⟩
  unfold SourceFile.lookupLineAndCol
  rw [hnone]

/-- C10 witness: the one-line file `"a"` at start position 1 has its
first line start at 1, so the lookup for position 0 misses. -/
theorem claim_C10_witness :
    (SourceFile.make ("a".toList) 1).lookupLine 0 = none ∧
    (SourceFile.make ("a".toList) 1).lookupLineAndCol 0 = some (0, 0) :=
  claim_C10 ("a".toList) 1 0 (Or.inr (by decide))

theorem sourceMapInv_new : SourceMapInv SourceMapState.new := by
  refine ⟨le_refl 1, List.Pairwise.nil, ?_⟩
  intro f hf
  simp [SourceMapState.new] at hf

theorem allocatePosSpace_some {st : SourceMapState} {size startPos : Nat}
    {st1 : SourceMapState}
    (h : st.allocatePosSpace size = some (startPos, st1)) :
    startPos = st.usedPosSpace ∧
    st1 = SourceMapState.mk (st.usedPosSpace + size + 1) st.files := by
  unfold SourceMapState.allocatePosSpace at h
  split at h
  · injection h with h
    rw [Prod.mk.injEq] at h
    exact ⟨h.1.symm, h.2.symm⟩
  · exact Option.noConfusion h

theorem loadTestFile_inv {st st' : SourceMapState} {src : List Char}
    (hinv : SourceMapInv st) (h : st.loadTestFile src = some st') :
    SourceMapInv st' := by
  obtain ⟨h1, h2, h3⟩ := hinv
  cases halloc : st.allocatePosSpace (byteLen src) with
  | none =>
    unfold SourceMapState.loadTestFile at h
    rw [halloc] at h
    exact Option.noConfusion h
  | some out =>
    obtain ⟨startPos, st1⟩ := out
    obtain ⟨ho1, ho2⟩ := allocatePosSpace_some halloc
    subst ho1
    subst ho2
    unfold SourceMapState.loadTestFile at h
    rw [halloc] at h
    injection h with h
    subst h
    refine ⟨?_, ?_, ?_⟩
    · show 1 ≤ st.usedPosSpace + byteLen src + 1
      omega
    · show (st.files ++ [SourceFile.make src st.usedPosSpace]).Pairwise
        (fun f g => f.span.endPos < g.span.start)
      rw [List.pairwise_append]
      refine ⟨h2, List.pairwise_singleton _ _, ?_⟩
      intro f hf g hg
      rw [List.mem_singleton] at hg
      subst hg
      show f.span.endPos < st.usedPosSpace
      exact (h3 f hf).2
    · intro f hf
      show 1 ≤ f.span.start ∧ f.span.endPos < st.usedPosSpace + byteLen src + 1
      have hf : f ∈ st.files ++ [SourceFile.make src st.usedPosSpace] := hf
      rcases List.mem_append.mp hf with hf | hf
      · have hx := h3 f hf
        omega
      · rw [List.mem_singleton] at hf
        subst hf
        constructor
        · show 1 ≤ st.usedPosSpace
          exact h1
        · show st.usedPosSpace + byteLen src < st.usedPosSpace + byteLen src + 1
          omega

theorem loadAllFrom_inv (srcs : List (List Char)) :
    ∀ {st st' : SourceMapState}, SourceMapInv st →
      loadAllFrom st srcs = some st' → SourceMapInv st' := by
  induction srcs with
  | nil =>
    intro st st' hinv h
    simp only [loadAllFrom] at h
    cases h
    exact hinv
  | cons src rest ih =>
    intro st st' hinv h
    simp only [loadAllFrom] at h
    cases hload : st.loadTestFile src with
    | none => rw [hload] at h; cases h
    | some st1 =>
      rw [hload] at h
      exact ih (loadTestFile_inv hinv hload) h

/-- C4: after any sequence of loads on a fresh `SourceMap`, the assigned
ranges of the loaded files are pairwise disjoint with at least one guard
byte between consecutive ranges (`end < next start`), position 0 lies
inside no file's range, and every successful `allocate_pos_space(size)`
returns the previous counter value and advances the counter by
`size + 1`. -/
theorem claim_C4 (srcs : List (List Char)) (st : SourceMapState)
    (h : loadAll srcs = some st) :
    st.files.Pairwise (fun f g => f.span.endPos < g.span.start) ∧
    (∀ f ∈ st.files, ¬ (f.span.start ≤ 0 ∧ 0 < f.span.endPos)) ∧
    (∀ st0 : SourceMapState, ∀ size startPos : Nat, ∀ st1 : SourceMapState,
      st0.allocatePosSpace size = some (startPos, st1) →
      startPos = st0.usedPosSpace ∧
      st1.usedPosSpace = st0.usedPosSpace + size + 1) := by
  obtain ⟨h1, h2, h3⟩ := loadAllFrom_inv srcs sourceMapInv_new h
  refine ⟨h2, ?_, ?_⟩
  · intro f hf hcontra
    have := (h3 f hf).1
    omega
  · intro st0 size startPos st1 hall
    obtain ⟨ho1, ho2⟩ := allocatePosSpace_some hall
    subst ho2
    exact ⟨ho1, rfl⟩

/-- C4 witness: loading `"ab"` and then the empty string gives the ranges
`[1, 3)` and `[4, 4)`, separated by the guard byte 3. -/
theorem claim_C4_witness :
    (SourceMapState.mk 5
      [SourceFile.mk ("ab".toList) (Span.mk 1 3) [1] [] [],
       SourceFile.mk [] (Span.mk 4 4) [] [] []]).files.Pairwise
        (fun f g => f.span.endPos < g.span.start) ∧
    (∀ f ∈ (SourceMapState.mk 5
      [SourceFile.mk ("ab".toList) (Span.mk 1 3) [1] [] [],
       SourceFile.mk [] (Span.mk 4 4) [] [] []]).files,
      ¬ (f.span.start ≤ 0 ∧ 0 < f.span.endPos)) ∧
    (∀ st0 : SourceMapState, ∀ size startPos : Nat, ∀ st1 : SourceMapState,
      st0.allocatePosSpace size = some (startPos, st1) →
      startPos = st0.usedPosSpace ∧
      st1.usedPosSpace = st0.usedPosSpace + size + 1) :=
  claim_C4 ["ab".toList, "".toList]
    (SourceMapState.mk 5
      [SourceFile.mk ("ab".toList) (Span.mk 1 3) [1] [] [],
       SourceFile.mk [] (Span.mk 4 4) [] [] []])
    (by decide)

theorem findName_eq_some {it : Interner} {s : String} {symbol : Symbol}
    (h : it.findName s = some symbol) :
    ∃ q ∈ it.names, q.1 = s ∧ q.2 = symbol := by
  unfold Interner.findName at h
  cases hf : it.names.find? (fun q => q.1 == s) with
  | none => rw [hf] at h; cases h
  | some q =>
    rw [hf] at h
    injection h with h
    refine ⟨q, List.mem_of_find?_eq_some hf, ?_, h⟩
    have := List.find?_some hf
    simpa using this

/-- The empty interner is well formed. -/
theorem interner_wf_empty : Interner.empty.wf := by
  intro q hq
  simp [Interner.empty] at hq

/-- The interner invariant is preserved by `intern` as long as fewer than
`2^32` symbols exist (the id is the vector length cast to `u32`). -/
theorem interner_wf_intern {it : Interner} (hwf : it.wf)
    (hlen : it.symbols.length < 2 ^ 32) (s : String) :
    (it.intern s).2.wf := by
  unfold Interner.intern
  cases hf : it.findName s with
  | some symbol => exact hwf
  | none =>
    intro q hq
    rcases List.mem_cons.mp hq with rfl | hq
    · show (it.symbols ++ [s])[it.symbols.length % 2 ^ 32]? = some s
      rw [Nat.mod_eq_of_lt hlen]
      simp
    · have := hwf q hq
      have hid : q.2.id < it.symbols.length := by
        by_contra hc
        rw [List.getElem?_eq_none (by omega)] at this
        cases this
      show (it.symbols ++ [s])[q.2.id]? = some q.1
      rw [List.getElem?_append_left hid]
      exact this

/-- C7: interning the same string twice returns the same symbol, and the
string recovered through `as_str` from the interned symbol is the
interned string, on every well-formed interner state that has not
exhausted the `u32` id space. -/
theorem claim_C7 (it : Interner) (s : String) (hwf : it.wf)
    (hlen : it.symbols.length < 2 ^ 32) :
    ((it.intern s).2.intern s).1 = (it.intern s).1 ∧
    (it.intern s).2.get (it.intern s).1 = some s := by
  unfold Interner.intern
  cases hf : it.findName s with
  | some symbol =>
    simp only
    constructor
    · rw [hf]
    · obtain ⟨q, hq, hq1, hq2⟩ := findName_eq_some hf
      unfold Interner.get
      have := hwf q hq
      rw [hq2, hq1] at this
      exact this
  | none =>
    simp only
    constructor
    · have : (Interner.mk (it.symbols ++ [s])
          ((s, Symbol.mk (it.symbols.length % 2 ^ 32)) :: it.names)).findName s
          = some (Symbol.mk (it.symbols.length % 2 ^ 32)) := by
        unfold Interner.findName
        simp [List.find?_cons]
      rw [this]
    · unfold Interner.get
      show (it.symbols ++ [s])[it.symbols.length % 2 ^ 32]? = some s
      rw [Nat.mod_eq_of_lt hlen]
      simp

/-- C7 witness: interning `"x"` into the empty interner. -/
theorem claim_C7_witness :
    ((Interner.empty.intern "x").2.intern "x").1 =
      (Interner.empty.intern "x").1 ∧
    (Interner.empty.intern "x").2.get (Interner.empty.intern "x").1 =
      some "x" :=
  claim_C7 Interner.empty "x" interner_wf_empty (by norm_num [Interner.empty])

/-- Refinement of the scan's lines component against the claim's wording:
both record `pos + 1` for each LF and for each CR not followed by LF, and
nothing else. -/
theorem analyzeLoop_lines_eq_claim (src : List Char) (pos : Nat) :
    (analyzeLoop src pos).1 = claimLineStarts src pos := by
  induction src generalizing pos with
  | nil => rfl
  | cons c rest ih =>
    by_cases h2 : c = '\n'
    · have h1 : c.toNat < 32 := by subst h2; decide
      simp [analyzeLoop, claimLineStarts, h1, h2, ih]
    · by_cases h3 : c = '\r' ∧ rest.head? ≠ some '\n'
      · have h1 : c.toNat < 32 := by rw [h3.1]; decide
        have h3b : (decide (c = '\r') && (rest.head? != some '\n')) = true := by
          rcases h3 with ⟨h3l, h3r⟩
          simp [h3l, bne_iff_ne, h3r]
        simp [analyzeLoop, claimLineStarts, h1, h2, h3, h3b, ih]
      · have h3b : (decide (c = '\r') && (rest.head? != some '\n')) = false := by
          rcases Decidable.not_and_iff_or_not.mp h3 with hl | hr
          · simp [hl]
          · rcases Decidable.not_not.mp (by simpa [bne_iff_ne] using hr)
              with heq
            simp [heq]
        by_cases h1 : c.toNat < 32
        · by_cases h4 : c = '\t' <;>
            simp [analyzeLoop, claimLineStarts, h1, h2, h3, h3b, h4, ih]
        · by_cases h5 : 127 ≤ c.toNat <;>
            simp [analyzeLoop, claimLineStarts, h1, h2, h3, h3b, h5, ih]

/-- C3: the single-pass scan records a line start immediately after each
LF and after each CR not followed by LF (one start per CRLF), seeds the
table with `start_pos` and pops the final entry when it equals the file
end — stated as equality with the table built from the claim's wording —
and on the source `"a\r\nb\rc\n"` loaded at start 1 the table is
`[1, 4, 6]`, i.e. `[0, 3, 5]` relative to the file start. -/
theorem claim_C3 :
    (∀ src startPos, (analyze src startPos).1 = claimLines src startPos) ∧
    (analyze ("a\r\nb\rc\n".toList) 1).1 = [1, 4, 6] ∧
    ((analyze ("a\r\nb\rc\n".toList) 1).1).map (fun x => x - 1) = [0, 3, 5] := by
  refine ⟨?_, by decide, by decide⟩
  intro src startPos
  rw [analyze_lines_eq, analyzeLoop_lines_eq_claim]
  unfold claimLines
  by_cases hc : (startPos :: claimLineStarts src startPos).getLast?
      = some (startPos + byteLen src)
  · simp [hc]
  · simp [hc]

/-- Unfolding lemma for `lookup_line_and_col` on a found line. -/
theorem lookupLineAndCol_some (f : SourceFile) (p line : Nat)
    (hline : f.lookupLine p = some line) :
    f.lookupLineAndCol p =
      (if f.lines.getD line 0 ≤ p ∧
          (((f.multiByteChars.drop
              (match rustBinarySearch (f.multiByteChars.map MultiByteChar.pos)
                  (f.lines.getD line 0) with
               | Sum.inl i => i
               | Sum.inr i => i)).takeWhile
              (fun x => decide (x.pos < p))).map
            (fun x => x.len - 1)).sum ≤ p - f.lines.getD line 0
       then some (line + 1,
          p - f.lines.getD line 0 -
            (((f.multiByteChars.drop
                (match rustBinarySearch (f.multiByteChars.map MultiByteChar.pos)
                    (f.lines.getD line 0) with
                 | Sum.inl i => i
                 | Sum.inr i => i)).takeWhile
                (fun x => decide (x.pos < p))).map
              (fun x => x.len - 1)).sum)
       else none) := by
  unfold SourceFile.lookupLineAndCol
  rw [hline]

/-- On a sorted lines table, a found line starts at or before the looked
up position (binary search `Ok` hits it exactly; `Err(i + 1)` has
`lines[i] < pos`), so the first `usize` subtraction of the column formula
never underflows. -/
theorem lookupLine_getD_le (f : SourceFile) (p line : Nat)
    (hsorted : StrictSorted f.lines)
    (hline : f.lookupLine p = some line) :
    f.lines.getD line 0 ≤ p := by
  unfold SourceFile.lookupLine at hline
  have hspec := rustBinarySearch_spec f.lines p hsorted
  rcases hres : rustBinarySearch f.lines p with i | i <;>
    rw [hres] at hspec hline
  · injection hline with hline
    subst hline
    omega
  · rcases i with _ | i
    · cases hline
    · injection hline with hline
      subst hline
      obtain ⟨hilen, hlo, _⟩ := hspec
      exact le_of_lt (hlo i (Nat.lt_succ_self i))

/-- The column computation of `lookup_line_and_col`, stated over the
whole multi-byte table: on a file whose multi-byte table is sorted by
position and a found line starting at or before `p`, the result is the
1-based line paired with the byte offset of `p` from the line start minus
the extra bytes of exactly those multi-byte characters recorded in
`[line_start, p)` — when those extra bytes fit in the offset — and the
underflow panic (`none`) otherwise. -/
theorem lookupLineAndCol_eq (f : SourceFile) (p line : Nat)
    (hline : f.lookupLine p = some line)
    (hmbc : f.multiByteChars.Pairwise (fun a b => a.pos < b.pos))
    (hls : f.lines.getD line 0 ≤ p) :
    f.lookupLineAndCol p =
      (if ((f.multiByteChars.filter (fun x =>
              decide (f.lines.getD line 0 ≤ x.pos) &&
              decide (x.pos < p))).map (fun x => x.len - 1)).sum ≤
            p - f.lines.getD line 0
       then some (line + 1,
          p - f.lines.getD line 0 -
            ((f.multiByteChars.filter (fun x =>
                decide (f.lines.getD line 0 ≤ x.pos) &&
                decide (x.pos < p))).map (fun x => x.len - 1)).sum)
       else none) := by
  have hkeysorted : StrictSorted (f.multiByteChars.map MultiByteChar.pos) := by
    unfold StrictSorted
    exact List.pairwise_map.mpr hmbc
  rw [lookupLineAndCol_some f p line hline]
  set target := f.lines.getD line 0 with htarget
  set si := (match rustBinarySearch (f.multiByteChars.map MultiByteChar.pos)
      target with
    | Sum.inl i => i
    | Sum.inr i => i) with hsi
  obtain ⟨hsil, hlo, hhi⟩ := rustBinarySearch_split
    (f.multiByteChars.map MultiByteChar.pos) target hkeysorted si hsi
  have hlen : (f.multiByteChars.map MultiByteChar.pos).length =
      f.multiByteChars.length := List.length_map _ _
  rw [takeWhile_drop_eq_filter f.multiByteChars target p si hmbc
    (fun j hj hjlen => by
      have := hlo j hj
      rwa [getD_map_pos _ _ hjlen] at this)
    (fun j hj hjlen => by
      have := hhi j hj (by rw [hlen]; exact hjlen)
      rwa [getD_map_pos _ _ hjlen] at this)]
  simp [hls]

/-- C1 counterexample: for the file `"λ = 1\n"` loaded at start 1, the
position right after `λ` (start + 2) yields
`lookup_line_col_and_col_display = (1, 1, 1)` — the column is the 0-based
character offset 1, not the claimed 1-based value 2. -/
theorem claim_C1_counterexample :
    (SourceFile.make ("λ = 1\n".toList) 1).lookupLineColAndColDisplay 3 =
      some (1, 1, 1) ∧
    ¬ ((SourceFile.make ("λ = 1\n".toList) 1).lookupLineColAndColDisplay 3 =
      some (1, 2, 1)) := by
  decide

/-- C1 (amended): for every source file and every position `p` on a found
line, `lookup_line_and_col(p)` returns the 1-based line number together
with the 0-based column — the byte offset of `p` from its line start
minus `(L - 1)` for each multi-byte character of length `L` recorded in
`[line_start, p)`, with no `+ 1` added — whenever those extra bytes fit
in the byte offset; when they exceed it (`p` strictly inside a multi-byte
character) the unchecked `usize` subtraction underflows and the code
panics (debug) or wraps (release), modelled as `none`, as the file
`"你"` at position start + 1 shows.  In particular, for the file
`"λ = 1\n"`, `lookup_line_col_and_col_display(start + 2)` returns
`(line = 1, col = 1, col_display = 1)`. -/
theorem claim_C1 :
    (∀ src startPos p line,
      (SourceFile.make src startPos).lookupLine p = some line →
      (SourceFile.make src startPos).lookupLineAndCol p =
        (if (((SourceFile.make src startPos).multiByteChars.filter (fun x =>
                decide ((SourceFile.make src startPos).lines.getD line 0 ≤
                  x.pos) &&
                decide (x.pos < p))).map (fun x => x.len - 1)).sum ≤
              p - (SourceFile.make src startPos).lines.getD line 0
         then some (line + 1,
            p - (SourceFile.make src startPos).lines.getD line 0 -
              (((SourceFile.make src startPos).multiByteChars.filter (fun x =>
                  decide ((SourceFile.make src startPos).lines.getD line 0 ≤
                    x.pos) &&
                  decide (x.pos < p))).map (fun x => x.len - 1)).sum)
         else none)) ∧
    (SourceFile.make ("λ = 1\n".toList) 1).lookupLineColAndColDisplay 3 =
      some (1, 1, 1) ∧
    (SourceFile.make ("你".toList) 1).lookupLineAndCol 2 = none := by
  refine ⟨?_, by decide, by decide⟩
  intro src startPos p line hline
  have hsorted : StrictSorted (SourceFile.make src startPos).lines := by
    rw [make_lines]
    exact analyze_lines_sorted src startPos
  apply lookupLineAndCol_eq _ _ _ hline
  · rw [make_mbc]
    exact analyzeLoop_mbc_sorted src startPos
  · exact lookupLine_getD_le _ _ _ hsorted hline

/-- C1 witness: the amended formula applied to the file `"λ = 1\n"` at
start 1 and position 3 (line index 0), where the extra bytes fit. -/
theorem claim_C1_witness :
    (SourceFile.make ("λ = 1\n".toList) 1).lookupLineAndCol 3 =
      (if (((SourceFile.make ("λ = 1\n".toList) 1).multiByteChars.filter
              (fun x =>
                decide ((SourceFile.make ("λ = 1\n".toList) 1).lines.getD 0 0 ≤
                  x.pos) &&
                decide (x.pos < 3))).map (fun x => x.len - 1)).sum ≤
            3 - (SourceFile.make ("λ = 1\n".toList) 1).lines.getD 0 0
       then some (0 + 1,
          3 - (SourceFile.make ("λ = 1\n".toList) 1).lines.getD 0 0 -
            (((SourceFile.make ("λ = 1\n".toList) 1).multiByteChars.filter
                (fun x =>
                  decide ((SourceFile.make ("λ = 1\n".toList) 1).lines.getD
                    0 0 ≤ x.pos) &&
                  decide (x.pos < 3))).map (fun x => x.len - 1)).sum)
       else none) :=
  claim_C1.1 ("λ = 1\n".toList) 1 3 0 (by decide)

end Kona
